import Mathlib

/-!
# DSK: disk-streaming k-mer counting (`src/DSK.cpp`)

A shallow embedding of the counting core of `DSK.cpp`:

* `Hash`                      : the functor `Hash::operator()`;
* `FillPartitions`            : the functor `FillPartitions::operator()` (scatter);
* `fillPartitions`            : `DSK::fillPartitions`;
* `gatherPartition`, `fillSolidKmers` : `DSK::fillSolidKmers` (gather);
* `configure`                 : the planner part of `DSK::configure`;
* `execute`                   : the pass loop of `DSK::execute`.

Conventions.  A value of `kmer_type` is a natural number below `2 ^ 64`; the
unsigned machine arithmetic of the source is written with explicit `% 2 ^ w`.
A `Sequence` is represented by the vector of k-mers that `model.build` yields
for it (the k-mer model belongs to the gatb library and is not part of
`DSK.cpp`).  A partition file is the list of the k-mers appended to it, the
set of partition files of a pass is a list of files, and the solid k-mers bag
is the list of the k-mers inserted into it.

`DSK::fillSolidKmers` reads `kmers.front()` without testing the buffer for
emptiness, which C++ leaves undefined on an empty partition file.  Every
function from `gatherPartition` up to `execute` therefore returns an `Option`:
`none` stands for an execution that aborts at that read.
-/

namespace DSK

/-! ## Hash -/

/-- Number of values of the 64-bit `kmer_type`. -/
def wordSize : Nat := 2 ^ 64

/-- The functor `Hash::operator()` (DSK.cpp, lines 40-53), on 64-bit words.
`~h` is `2 ^ 64 - 1 - h`; sums and products are reduced modulo `2 ^ 64`. -/
def Hash (lkmer : Nat) : Nat :=
  let lkmer := lkmer % wordSize
  let kmer_hash := lkmer ^^^ (lkmer >>> 14)
  let kmer_hash := ((wordSize - 1 - kmer_hash) + (kmer_hash <<< 18)) % wordSize
  let kmer_hash := kmer_hash ^^^ (kmer_hash >>> 31)
  let kmer_hash := (kmer_hash * 21) % wordSize
  let kmer_hash := kmer_hash ^^^ (kmer_hash >>> 11)
  let kmer_hash := (kmer_hash + (kmer_hash <<< 6)) % wordSize
  let kmer_hash := kmer_hash ^^^ (kmer_hash >>> 22)
  kmer_hash

/-! ## Scatter: `FillPartitions` and `DSK::fillPartitions` -/

/-- The call `_cache[p]->insert (kmer)`: the k-mer is appended to partition
file `p` (the per-thread caches only delay the write). -/
def cacheInsert (cache : List (List Nat)) (p kmer : Nat) : List (List Nat) :=
  cache.modify (fun file => file ++ [kmer]) p

/-- Body of the loop of `FillPartitions::operator()` (lines 72-84) for one
k-mer.  `nbPass` and `cache.length` are at least one on every call made by
`DSK::execute` (see `configure`). -/
def fillStep (nbPass pass : Nat) (cache : List (List Nat)) (kmer : Nat) : List (List Nat) :=
  let h := Hash kmer
  if h % nbPass ≠ pass then cache
  else
    let reduced_kmer := h / nbPass
    let p := reduced_kmer % cache.length
    cacheInsert cache p kmer

/-- The functor `FillPartitions::operator()` (lines 60-86); `kmers` is the
vector filled by `model.build (sequence.getData(), kmers)`. -/
def FillPartitions (nbPass pass : Nat) (cache : List (List Nat)) (kmers : List Nat) :
    List (List Nat) :=
  kmers.foldl (fillStep nbPass pass) cache

/-- Modelled from the spec: the constructor of `BagFilePartition` (gatb
library, not in `DSK.cpp`).  The spec's partition lifecycle says the files of
a pass are created at pass start: whatever the disk held, the pass starts with
`nb_partitions` empty files. -/
def newPartitions (_disk : List (List Nat)) (nb_partitions : Nat) : List (List Nat) :=
  List.replicate nb_partitions []

/-- The method `DSK::fillPartitions` (lines 311-329): the partition files are
created, then the dispatcher applies the functor to every sequence of the
iterator (here in the order of the list). -/
def fillPartitions (nb_passes nb_partitions pass : Nat) (disk : List (List Nat))
    (itSeq : List (List Nat)) : List (List Nat) :=
  itSeq.foldl (FillPartitions nb_passes pass) (newPartitions disk nb_partitions)

/-! ## Gather: `DSK::fillSolidKmers` -/

/-- The constant `max_couv` (line 359). -/
def max_couv : Nat := 2147483646

/-- Local variables of the scan loop together with the solid k-mers bag. -/
structure ScanState where
  abundance : Nat
  previous_kmer : Nat
  solidKmers : List Nat
deriving DecidableEq

/-- The abundance test `abundance >= _nks && abundance <= max_couv`. -/
def inBand (nks abundance : Nat) : Bool :=
  decide (nks ≤ abundance) && decide (abundance ≤ max_couv)

/-- Body of the scan loop (lines 365-376).  `abundance` is a `u_int32_t`:
the increment is reduced modulo `2 ^ 32`. -/
def scanStep (nks : Nat) (s : ScanState) (current_kmer : Nat) : ScanState :=
  if current_kmer = s.previous_kmer then
    { abundance := (s.abundance + 1) % 2 ^ 32
      previous_kmer := current_kmer
      solidKmers := s.solidKmers }
  else
    { abundance := 1
      previous_kmer := current_kmer
      solidKmers :=
        if inBand nks s.abundance then s.solidKmers ++ [s.previous_kmer] else s.solidKmers }

/-- The scan loop and the final test after it (lines 363-382), started in
state `s` on the sorted buffer `kmers`; the result is the solid k-mers bag. -/
def scanRun (nks : Nat) (s : ScanState) (kmers : List Nat) : List Nat :=
  let s := kmers.foldl (scanStep nks) s
  if inBand nks s.abundance then s.solidKmers ++ [s.previous_kmer] else s.solidKmers

/-- The read `kmers.front()` of line 361.  On a non-empty buffer it delivers
the first k-mer.  On an empty buffer C++ leaves the read undefined, and the
argument `front` says what the execution does there: `none` when it aborts at
the read (the access goes through the data pointer of a vector that holds
nothing), `some v` when the read delivers a value `v` and the execution goes
on. -/
def readFront (front : Option Nat) (kmers : List Nat) : Option Nat :=
  match kmers with
  | first :: _ => some first
  | [] => front

/-- Body of the loop of `DSK::fillSolidKmers` for one partition file (lines
348-382): load, sort, read `kmers.front()`, scan, final test.  `std::sort` on
integers is modelled by insertion sort (the ascending rearrangement is
unique).  The result is the solid k-mers bag, or `none` when the execution
aborts at `kmers.front()`. -/
def gatherPartition (front : Option Nat) (nks : Nat) (file : List Nat)
    (solidKmers : List Nat) : Option (List Nat) :=
  let kmers := file.insertionSort (· ≤ ·)
  match readFront front kmers with
  | some previous_kmer =>
    some (scanRun nks
      { abundance := 0, previous_kmer := previous_kmer, solidKmers := solidKmers } kmers)
  | none => none

/-- The method `DSK::fillSolidKmers` (lines 339-384): the partition files
`0 .. nb_partitions - 1` are processed in this order, as long as the execution
has not aborted.  `front i` says what `kmers.front()` does if file `i` is
empty.  The files themselves are only read. -/
def fillSolidKmers (front : Nat → Option Nat) (nb_partitions nks : Nat)
    (disk : List (List Nat)) (solidKmers : List Nat) : Option (List Nat) :=
  (List.range nb_partitions).foldl
    (fun solid i => solid.bind (fun s => gatherPartition (front i) nks (disk.getD i []) s))
    (some solidKmers)

/-! ## The pass loop of `DSK::execute` -/

/-- Partition files on disk and contents of the solid k-mers bag. -/
structure RunState where
  disk : List (List Nat)
  solidKmers : List Nat
deriving DecidableEq

/-- Body of the pass loop (lines 221-225); `none` when the gather of the pass
aborts. -/
def passBody (front : Nat → Nat → Option Nat) (nb_passes nb_partitions nks : Nat)
    (itSeq : List (List Nat)) (st : RunState) (pass : Nat) : Option RunState :=
  let disk := fillPartitions nb_passes nb_partitions pass st.disk itSeq
  (fillSolidKmers (front pass) nb_partitions nks disk st.solidKmers).map
    (fun solid => { disk := disk, solidKmers := solid })

/-- The pass loop of `DSK::execute` (lines 219-226), started with the empty
solid bag made by `createSolidKmersBag`; the result is the content of the
solid k-mers file, or `none` when the execution aborts in some pass. -/
def execute (front : Nat → Nat → Option Nat) (nb_passes nb_partitions nks : Nat)
    (itSeq : List (List Nat)) : Option (List Nat) :=
  ((List.range nb_passes).foldl
    (fun st pass => st.bind (fun s => passBody front nb_passes nb_partitions nks itSeq s pass))
    (some { disk := [], solidKmers := [] })).map (fun st => st.solidKmers)

/-! ## Planner: `DSK::configure` -/

/-- Outcome of the planner: the plan `(nb_passes, nb_partitions)`, a division
by zero, or no result within the given number of loop iterations. -/
inductive Plan where
  | ret (nb_passes nb_partitions : Nat)
  | divByZero
  | outOfFuel
deriving DecidableEq

/-- The `do ... while (1)` loop of `DSK::configure` (lines 279-286), run for
at most `fuel` iterations. -/
def configureLoop (volume max_memory max_open_files : Nat) : Nat → Nat → Plan
  | 0, _ => Plan.outOfFuel
  | fuel + 1, nb_passes =>
    if nb_passes = 0 ∨ max_memory = 0 then Plan.divByZero
    else
      let volume_per_pass := volume / nb_passes
      let nb_partitions := volume_per_pass / max_memory + 1
      if nb_partitions ≥ max_open_files then
        configureLoop volume max_memory max_open_files fuel (nb_passes + 1)
      else Plan.ret nb_passes nb_partitions

/-- Lines 270-272 of `DSK::configure`: the disk budget. -/
def maxDiskSpace (available_space bankSize : Nat) : Nat :=
  let max_disk_space := min (available_space / 2) bankSize
  if max_disk_space = 0 then 10000 else max_disk_space

/-- Lines 274-286 of `DSK::configure`: the plan computed from the volume
`_volume`, the disk budget `_max_disk_space`, the memory budget `_max_memory`
and the result `maxFiles` of `getMaxFilesNumber()`.  The members are declared
in `DSK.hpp`; their values are taken as natural numbers (with
`max_open_files ≥ 2` the pass count never exceeds `max (V / D + 1) (V + 1)`,
see `configureLoop_ret_le`, so that no 64-bit counter wraps). -/
def configure (fuel volume max_disk_space max_memory maxFiles : Nat) : Plan :=
  if max_disk_space = 0 then Plan.divByZero
  else
    let nb_passes := volume / max_disk_space + 1
    let max_open_files := maxFiles / 2
    configureLoop volume max_memory max_open_files fuel nb_passes

/-- Lines 280-281 of `DSK::configure`: the partition count that the loop
computes for the pass count `nb_passes`. -/
def nbPartitions (volume max_memory nb_passes : Nat) : Nat :=
  volume / nb_passes / max_memory + 1

/-- Lines 111 and 185 of `DSK.cpp`: `_nks` is `3` unless the option `-nks` is
present, and then it is the value of the option, taken as it is (`DSK::execute`
tests neither it nor the k-mer size). -/
def nksOf (prop : Option Nat) : Nat :=
  match prop with
  | some value => value
  | none => 3

/-! ## Specification-side notions -/

/-- Test whether k-mer `kmer` is routed to partition `q` of pass `pass` under
the plan `(P, Q)`: `Hash kmer % P = pass` and `(Hash kmer / P) % Q = q`. -/
def routed (P Q pass q kmer : Nat) : Bool :=
  decide (Hash kmer % P = pass) && decide (Hash kmer / P % Q = q)

/-- The k-mer stream of a bank: the k-mers of all sequences, in order. -/
def stream (itSeq : List (List Nat)) : List Nat := itSeq.flatten

/-- The behaviour in which every read of `kmers.front()` on an empty buffer
aborts the execution. -/
def trap : Nat → Nat → Option Nat := fun _ _ => none

/-- No partition file of any pass of the plan `(P, Q)` stays empty. -/
def noEmptyPartition (P Q : Nat) (itSeq : List (List Nat)) : Prop :=
  ∀ pass, pass < P → ∀ q, q < Q → (fillPartitions P Q pass [] itSeq).getD q [] ≠ []

/-- No read of `kmers.front()` aborts during the run: every partition file is
non-empty, or the read on the empty buffer delivers a value. -/
def completes (front : Nat → Nat → Option Nat) (P Q : Nat) (itSeq : List (List Nat)) : Prop :=
  ∀ pass, pass < P → ∀ q, q < Q →
    (fillPartitions P Q pass [] itSeq).getD q [] ≠ [] ∨ (front pass q).isSome = true

/-- The gather of one partition file once `kmers.front()` has delivered a
value: the first k-mer of the sorted buffer, or `p` on an empty buffer. -/
def gatherWith (p nks : Nat) (file : List Nat) (solidKmers : List Nat) : List Nat :=
  let kmers := file.insertionSort (· ≤ ·)
  scanRun nks { abundance := 0, previous_kmer := kmers.headD p, solidKmers := solidKmers }
    kmers

/-- The k-mers that a gather which does not abort appends for partition `q`
of pass `pass`: the contribution of `(pass, q)` to the solid k-mers file. -/
def contribution (p : Nat → Nat → Nat) (P Q nks : Nat) (itSeq : List (List Nat))
    (pass q : Nat) : List Nat :=
  gatherWith (p pass q) nks ((fillPartitions P Q pass [] itSeq).getD q []) []

/-- The contributions of the partitions `0 .. Q - 1` of pass `pass`, in this order. -/
def passContribution (p : Nat → Nat → Nat) (P Q nks : Nat) (itSeq : List (List Nat))
    (pass : Nat) : List Nat :=
  ((List.range Q).map (contribution p P Q nks itSeq pass)).flatten

/-- The contributions of the passes `0 .. P - 1`, in this order: pass-major,
then partition-major. -/
def solidOutput (p : Nat → Nat → Nat) (P Q nks : Nat) (itSeq : List (List Nat)) : List Nat :=
  ((List.range P).map (passContribution p P Q nks itSeq)).flatten

/-- Modelled from the spec: the 2-bit code of a nucleotide, `A=00, C=01, T=10,
G=11` (the k-mer model of the gatb library is not part of `DSK.cpp`). -/
def nucleotide (c : Char) : Nat :=
  if c = 'A' then 0 else if c = 'C' then 1 else if c = 'T' then 2 else 3

/-- Modelled from the spec: the integer that represents a k-mer, two bits per
nucleotide, first nucleotide in the most significant position. -/
def encodeKmer (kmer : List Char) : Nat :=
  kmer.foldl (fun acc c => 4 * acc + nucleotide c) 0

/-- The 3-mer `ACG`. -/
def ACG : Nat := encodeKmer ['A', 'C', 'G']

/-- The 3-mer `TAC`. -/
def TAC : Nat := encodeKmer ['T', 'A', 'C']

/-- The canonical 3-mers of the read `ACGTACGT`, in read order (scenarios S1
and S2 of the spec). -/
def readACGTACGT : List Nat := [ACG, ACG, TAC, TAC, ACG, ACG]

/-- Ceiling of the quotient `a / b`. -/
def ceilDiv (a b : Nat) : Nat := (a + b - 1) / b

/-- Floor of the quotient `a / b`, plus one. -/
def floorSucc (a b : Nat) : Nat := a / b + 1

/-- The loop of the reference planner, in the words of the spec (section 4.E):
`Q ← round ((V/P) / M)`; if `Q ≥ F/2`, increment `P` and repeat; else
terminate.  The spec rounds with the ceiling (`round = ceilDiv`).  The loop is
run for at most `fuel` iterations; `none` means no result within them. -/
def referenceLoop (round : Nat → Nat → Nat) (V M F2 : Nat) : Nat → Nat → Option (Nat × Nat)
  | 0, _ => none
  | fuel + 1, P =>
    if round (V / P) M ≥ F2 then referenceLoop round V M F2 fuel (P + 1)
    else some (P, round (V / P) M)

/-- The reference planner, in the words of the spec (section 4.E):
`P ← round (V / D)`, initially at least 1, then the loop.  The spec rounds
with the ceiling (`round = ceilDiv`). -/
def referencePlanner (round : Nat → Nat → Nat) (fuel V D M F : Nat) : Option (Nat × Nat) :=
  referenceLoop round V M (F / 2) fuel (max 1 (round V D))

/-- A partition file that holds `2 ^ 32 + 1` copies of the k-mer `ACG`. -/
def bigRun : List Nat := List.replicate (2 ^ 32 + 1) ACG

/-! ## Scatter lemmas -/

theorem length_cacheInsert (cache : List (List Nat)) (p kmer : Nat) :
    (cacheInsert cache p kmer).length = cache.length := by
  simp [cacheInsert]

theorem getD_cacheInsert (cache : List (List Nat)) (p kmer q : Nat) (hq : q < cache.length) :
    (cacheInsert cache p kmer).getD q [] =
      cache.getD q [] ++ (if p = q then [kmer] else []) := by
  simp only [cacheInsert, List.getD_eq_getElem?_getD, List.getElem?_modify]
  rw [List.getElem?_eq_getElem hq]
  by_cases h : p = q <;> simp [h]

theorem length_fillStep (nbPass pass : Nat) (cache : List (List Nat)) (kmer : Nat) :
    (fillStep nbPass pass cache kmer).length = cache.length := by
  simp only [fillStep]
  split
  · rfl
  · exact length_cacheInsert _ _ _

theorem getD_fillStep (nbPass pass : Nat) (cache : List (List Nat)) (kmer q : Nat)
    (hq : q < cache.length) :
    (fillStep nbPass pass cache kmer).getD q [] =
      cache.getD q [] ++ (if routed nbPass cache.length pass q kmer then [kmer] else []) := by
  unfold fillStep routed
  by_cases h : Hash kmer % nbPass = pass
  · simp only [h, ne_eq, not_true_eq_false, if_false, decide_True, Bool.true_and,
      decide_eq_true_eq]
    rw [getD_cacheInsert _ _ _ _ hq]
  · simp [h]

theorem length_FillPartitions (nbPass pass : Nat) (kmers : List Nat) :
    ∀ cache : List (List Nat), (FillPartitions nbPass pass cache kmers).length = cache.length := by
  induction kmers with
  | nil => intro cache; rfl
  | cons x xs ih =>
    intro cache
    simp only [FillPartitions, List.foldl_cons] at ih ⊢
    rw [ih, length_fillStep]

theorem getD_FillPartitions (nbPass pass q : Nat) (kmers : List Nat) :
    ∀ cache : List (List Nat), q < cache.length →
      (FillPartitions nbPass pass cache kmers).getD q [] =
        cache.getD q [] ++ kmers.filter (routed nbPass cache.length pass q) := by
  induction kmers with
  | nil => intro cache _; simp [FillPartitions]
  | cons x xs ih =>
    intro cache hq
    have hlen := length_fillStep nbPass pass cache x
    have h1 := ih (fillStep nbPass pass cache x) (by rw [hlen]; exact hq)
    simp only [FillPartitions, List.foldl_cons] at h1 ⊢
    rw [h1, getD_fillStep _ _ _ _ _ hq, hlen, List.filter_cons]
    by_cases h : routed nbPass cache.length pass q x = true <;> simp [h]

theorem foldl_FillPartitions (nbPass pass q : Nat) (itSeq : List (List Nat)) :
    ∀ cache : List (List Nat), q < cache.length →
      (itSeq.foldl (FillPartitions nbPass pass) cache).length = cache.length ∧
      (itSeq.foldl (FillPartitions nbPass pass) cache).getD q [] =
        cache.getD q [] ++ (stream itSeq).filter (routed nbPass cache.length pass q) := by
  induction itSeq with
  | nil => intro cache _; simp [stream]
  | cons s ss ih =>
    intro cache hq
    have hlen := length_FillPartitions nbPass pass s cache
    obtain ⟨h1, h2⟩ := ih (FillPartitions nbPass pass cache s) (by rw [hlen]; exact hq)
    simp only [List.foldl_cons]
    refine ⟨by rw [h1, hlen], ?_⟩
    rw [h2, getD_FillPartitions _ _ _ _ _ hq, hlen]
    simp [stream, List.append_assoc]

theorem length_fillPartitions (P Q pass : Nat) (disk itSeq : List (List Nat)) :
    (fillPartitions P Q pass disk itSeq).length = Q := by
  unfold fillPartitions newPartitions
  generalize hc : List.replicate Q ([] : List Nat) = cache
  have hl : cache.length = Q := by rw [← hc]; simp
  clear hc
  induction itSeq generalizing cache with
  | nil => simpa using hl
  | cons s ss ih =>
    simp only [List.foldl_cons]
    exact ih _ (by rw [length_FillPartitions, hl])

theorem getD_fillPartitions (P Q pass q : Nat) (disk itSeq : List (List Nat)) (hq : q < Q) :
    (fillPartitions P Q pass disk itSeq).getD q [] =
      (stream itSeq).filter (routed P Q pass q) := by
  unfold fillPartitions newPartitions
  have h := (foldl_FillPartitions P pass q itSeq (List.replicate Q []) (by simpa using hq)).2
  rw [h]
  simp [List.getD_eq_getElem?_getD, hq]

/-! ## Gather lemmas -/

theorem scanRun_nil (nks : Nat) (s : ScanState) :
    scanRun nks s [] =
      if inBand nks s.abundance then s.solidKmers ++ [s.previous_kmer] else s.solidKmers := rfl

theorem scanRun_cons (nks : Nat) (s : ScanState) (c : Nat) (t : List Nat) :
    scanRun nks s (c :: t) = scanRun nks (scanStep nks s c) t := rfl

/-- The scan only appends to the bag it is given. -/
theorem scanRun_solid (nks : Nat) (kmers : List Nat) :
    ∀ (a prev : Nat) (solid : List Nat),
      scanRun nks ⟨a, prev, solid⟩ kmers = solid ++ scanRun nks ⟨a, prev, []⟩ kmers := by
  induction kmers with
  | nil =>
    intro a prev solid
    simp only [scanRun_nil]
    split <;> simp
  | cons c t ih =>
    intro a prev solid
    simp only [scanRun_cons, scanStep]
    by_cases hc : c = prev
    · simp only [hc, if_true]
      exact ih _ _ _
    · simp only [hc, if_false]
      rw [ih 1 c (if inBand nks a then solid ++ [prev] else solid),
        ih 1 c (if inBand nks a then [] ++ [prev] else [])]
      split <;> simp

theorem scanRun_cons_eq (nks a prev : Nat) (t : List Nat) :
    scanRun nks ⟨a, prev, []⟩ (prev :: t) = scanRun nks ⟨(a + 1) % 2 ^ 32, prev, []⟩ t := by
  simp [scanRun_cons, scanStep]

theorem scanRun_cons_ne (nks a prev c : Nat) (t : List Nat) (hc : c ≠ prev) :
    scanRun nks ⟨a, prev, []⟩ (c :: t) =
      (if inBand nks a then [prev] else []) ++ scanRun nks ⟨1, c, []⟩ t := by
  simp only [scanRun_cons, scanStep, hc, if_false]
  rw [scanRun_solid]
  simp

theorem gatherWith_solid (front nks : Nat) (file solid : List Nat) :
    gatherWith front nks file solid = solid ++ gatherWith front nks file [] := by
  simp only [gatherWith]
  exact scanRun_solid _ _ _ _ _

/-- Number of times each k-mer is appended by the scan of a sorted buffer
whose elements are all at least `prev`, when `a` occurrences of `prev` have
been counted so far. -/
theorem count_scanRun (nks : Nat) (l : List Nat) :
    ∀ (a prev : Nat), a < 2 ^ 32 → l.Sorted (· ≤ ·) → (∀ y ∈ l, prev ≤ y) → ∀ x : Nat,
      (scanRun nks ⟨a, prev, []⟩ l).count x =
        if x = prev then (if inBand nks ((a + l.count prev) % 2 ^ 32) = true then 1 else 0)
        else if x ∈ l ∧ inBand nks (l.count x % 2 ^ 32) = true then 1 else 0 := by
  induction l with
  | nil =>
    intro a prev ha _ _ x
    simp only [scanRun_nil, List.count_nil, Nat.add_zero, Nat.mod_eq_of_lt ha,
      List.not_mem_nil, false_and, if_false, List.nil_append]
    by_cases hx : x = prev
    · subst hx
      by_cases hb : inBand nks a = true <;> simp [hb]
    · by_cases hb : inBand nks a = true <;> simp [hb, hx, Ne.symm hx]
  | cons c t ih =>
    intro a prev ha hs hle x
    have hst : t.Sorted (· ≤ ·) := hs.of_cons
    have hct : ∀ y ∈ t, c ≤ y := fun y hy => List.rel_of_sorted_cons hs y hy
    by_cases hc : c = prev
    · subst hc
      rw [scanRun_cons_eq, ih _ _ (Nat.mod_lt _ (by norm_num)) hst hct x]
      by_cases hx : x = c
      · subst hx
        have hm : ((a + 1) % 2 ^ 32 + List.count x t) % 2 ^ 32 =
            (a + (List.count x t + 1)) % 2 ^ 32 := by omega
        rw [if_pos rfl, if_pos rfl, List.count_cons_self, hm]
      · rw [if_neg hx, if_neg hx, List.count_cons_of_ne hx]
        simp only [List.mem_cons, hx, false_or]
    · have hlt : prev < c :=
        lt_of_le_of_ne (hle c (List.mem_cons_self _ _)) (Ne.symm hc)
      have hnot : prev ∉ t := fun h => absurd (hct _ h) (not_le.2 hlt)
      rw [scanRun_cons_ne _ _ _ _ _ hc, List.count_append, ih 1 c (by norm_num) hst hct x]
      by_cases hx : x = prev
      · subst hx
        have hxc : x ≠ c := Ne.symm hc
        have h0 : List.count x t = 0 := List.count_eq_zero_of_not_mem hnot
        rw [if_neg hxc, if_pos rfl, List.count_cons_of_ne hxc, h0, Nat.add_zero,
          Nat.mod_eq_of_lt ha]
        simp only [hnot, false_and, if_false, Nat.add_zero]
        by_cases hb : inBand nks a = true <;> simp [hb]
      · have h1 : List.count x (if inBand nks a = true then [prev] else []) = 0 := by
          by_cases hb : inBand nks a = true <;> simp [hb, hx]
        rw [h1, Nat.zero_add, if_neg hx]
        by_cases hx2 : x = c
        · subst hx2
          have hm : (1 + List.count x t) % 2 ^ 32 = (List.count x t + 1) % 2 ^ 32 := by
            rw [Nat.add_comm]
          rw [if_pos rfl, List.count_cons_self, hm]
          simp only [List.mem_cons_self, true_and]
        · rw [if_neg hx2, List.count_cons_of_ne hx2]
          simp only [List.mem_cons, hx2, false_or]

/-- The k-mers appended by the scan form a sublist of `prev :: l`. -/
theorem sublist_scanRun (nks : Nat) (l : List Nat) :
    ∀ (a prev : Nat), (scanRun nks ⟨a, prev, []⟩ l).Sublist (prev :: l) := by
  induction l with
  | nil =>
    intro a prev
    simp only [scanRun_nil, List.nil_append]
    by_cases hb : inBand nks a = true <;> simp [hb]
  | cons c t ih =>
    intro a prev
    by_cases hc : c = prev
    · subst hc
      rw [scanRun_cons_eq]
      exact (ih _ _).trans (List.sublist_cons_self _ _)
    · rw [scanRun_cons_ne _ _ _ _ _ hc]
      have h1 : (if inBand nks a = true then [prev] else []).Sublist [prev] := by
        by_cases hb : inBand nks a = true <;> simp [hb]
      exact h1.append (ih 1 c)

theorem inBand_zero (nks : Nat) (h : 1 ≤ nks) : inBand nks 0 = false := by
  simp only [inBand, Bool.and_eq_false_imp, decide_eq_true_eq]
  intro h0
  omega

theorem inBand_iff (nks c : Nat) : inBand nks c = true ↔ nks ≤ c ∧ c ≤ 2 ^ 31 - 2 := by
  simp [inBand, max_couv]

theorem headD_le_of_sorted (front : Nat) (kmers : List Nat) (hs : kmers.Sorted (· ≤ ·)) :
    ∀ y ∈ kmers, kmers.headD front ≤ y := by
  cases kmers with
  | nil => intro y hy; simp at hy
  | cons c t =>
    intro y hy
    rcases List.mem_cons.1 hy with h | h
    · simp [h]
    · exact List.rel_of_sorted_cons hs y h

theorem gatherWith_nil (front nks : Nat) :
    gatherWith front nks [] [] = if inBand nks 0 = true then [front] else [] := by
  simp [gatherWith, scanRun_nil]

/-- Number of times a k-mer is appended by a gather that does not abort
(32-bit abundance counter), whenever the partition is non-empty or `nks ≥ 1`. -/
theorem count_gatherWith (front nks : Nat) (file : List Nat) (x : Nat)
    (h : file ≠ [] ∨ 1 ≤ nks) :
    (gatherWith front nks file []).count x =
      if x ∈ file ∧ inBand nks (file.count x % 2 ^ 32) = true then 1 else 0 := by
  have hperm : (file.insertionSort (· ≤ ·)).Perm file := List.perm_insertionSort _ file
  have hs : (file.insertionSort (· ≤ ·)).Sorted (· ≤ ·) := List.sorted_insertionSort _ file
  by_cases hne : file = []
  · subst hne
    have hn : 1 ≤ nks := by
      rcases h with h | h
      · exact absurd rfl h
      · exact h
    simp [gatherWith_nil, inBand_zero nks hn]
  · have hc := count_scanRun nks (file.insertionSort (· ≤ ·)) 0
      ((file.insertionSort (· ≤ ·)).headD front) (by norm_num) hs
      (headD_le_of_sorted front _ hs) x
    simp only [gatherWith]
    rw [hc, hperm.count_eq, hperm.count_eq, Nat.zero_add]
    simp only [hperm.mem_iff]
    have hmem : (file.insertionSort (· ≤ ·)).headD front ∈ file := by
      rw [← hperm.mem_iff]
      cases hk : file.insertionSort (· ≤ ·) with
      | nil =>
        have := hperm.length_eq
        rw [hk] at this
        exact absurd (List.length_eq_zero.1 this.symm) hne
      | cons c t => simp
    by_cases hx : x = (file.insertionSort (· ≤ ·)).headD front
    · rw [if_pos hx, ← hx]
      rw [← hx] at hmem
      simp only [hmem, true_and]
    · rw [if_neg hx]

/-- The k-mers appended by the gather step of one partition are in strictly
ascending order. -/
theorem sorted_gatherWith (front nks : Nat) (file : List Nat) :
    (gatherWith front nks file []).Sorted (· < ·) := by
  by_cases hne : file = []
  · subst hne
    rw [gatherWith_nil]
    by_cases hb : inBand nks 0 = true <;> simp [hb]
  · have hs : (file.insertionSort (· ≤ ·)).Sorted (· ≤ ·) := List.sorted_insertionSort _ file
    have hsub := sublist_scanRun nks (file.insertionSort (· ≤ ·)) 0
      ((file.insertionSort (· ≤ ·)).headD front)
    have hs2 : (((file.insertionSort (· ≤ ·)).headD front) ::
        file.insertionSort (· ≤ ·)).Sorted (· ≤ ·) :=
      List.sorted_cons.2 ⟨headD_le_of_sorted front _ hs, hs⟩
    have hle : (gatherWith front nks file []).Sorted (· ≤ ·) := hs2.sublist hsub
    refine hle.lt_of_le ?_
    rw [List.nodup_iff_count_le_one]
    intro x
    rw [count_gatherWith front nks file x (Or.inl hne)]
    split <;> omega

/-- A gather that does not abort depends neither on the order of the
partition file nor, when the file is non-empty or `nks ≥ 1`, on the value read
by `kmers.front()`. -/
theorem gatherWith_congr (front front' nks : Nat) (xs ys solid : List Nat)
    (hp : ys.Perm xs) (h : xs ≠ [] ∨ 1 ≤ nks) :
    gatherWith front nks ys solid = gatherWith front' nks xs solid := by
  have hsort : ys.insertionSort (· ≤ ·) = xs.insertionSort (· ≤ ·) :=
    List.eq_of_perm_of_sorted
      (((List.perm_insertionSort _ ys).trans hp).trans (List.perm_insertionSort _ xs).symm)
      (List.sorted_insertionSort _ ys) (List.sorted_insertionSort _ xs)
  simp only [gatherWith, hsort]
  cases hk : xs.insertionSort (· ≤ ·) with
  | nil =>
    have hx : xs = [] := by
      have := (List.perm_insertionSort (· ≤ ·) xs).length_eq
      rw [hk] at this
      exact List.length_eq_zero.1 this.symm
    have hn : 1 ≤ nks := by
      rcases h with h | h
      · exact absurd hx h
      · exact h
    simp [scanRun_nil, inBand_zero nks hn]
  | cons c t => rfl

/-! ## The gather step and the read of `kmers.front()` -/

theorem insertionSort_eq_nil (file : List Nat) :
    file.insertionSort (· ≤ ·) = [] ↔ file = [] := by
  constructor
  · intro h
    have := (List.perm_insertionSort (· ≤ ·) file).length_eq
    rw [h] at this
    exact List.length_eq_zero.1 this.symm
  · intro h
    subst h
    rfl

/-- The gather of a partition file is the gather that follows the read of
`kmers.front()`, if that read delivers a value. -/
theorem gatherPartition_eq (front : Option Nat) (nks : Nat) (file solid : List Nat) :
    gatherPartition front nks file solid =
      (readFront front (file.insertionSort (· ≤ ·))).map
        (fun p => gatherWith p nks file solid) := by
  simp only [gatherPartition, gatherWith]
  cases hk : file.insertionSort (· ≤ ·) with
  | nil =>
    cases front with
    | none => rfl
    | some v => rfl
  | cons c t => rfl

/-- On an empty partition file the gather aborts when the read of
`kmers.front()` does. -/
theorem gatherPartition_trap (nks : Nat) (solid : List Nat) :
    gatherPartition none nks [] solid = none := rfl

/-- On a non-empty partition file the gather does not abort, whatever the
read would do on an empty buffer. -/
theorem gatherPartition_of_ne (front : Option Nat) (p nks : Nat) (file solid : List Nat)
    (h : file ≠ []) :
    gatherPartition front nks file solid = some (gatherWith p nks file solid) := by
  rw [gatherPartition_eq]
  simp only [gatherWith]
  cases hk : file.insertionSort (· ≤ ·) with
  | nil => exact absurd ((insertionSort_eq_nil file).1 hk) h
  | cons c t => rfl

theorem gatherPartition_defined (front : Option Nat) (nks : Nat) (file solid : List Nat)
    (h : file ≠ [] ∨ front.isSome = true) :
    gatherPartition front nks file solid = some (gatherWith (front.getD 0) nks file solid) := by
  by_cases hne : file = []
  · subst hne
    cases front with
    | none =>
      rcases h with h | h
      · exact absurd rfl h
      · simp at h
    | some v => rfl
  · exact gatherPartition_of_ne front _ nks file solid hne

theorem gatherPartition_undefined (front : Option Nat) (nks : Nat) (file solid : List Nat)
    (h : file = [] ∧ front = none) : gatherPartition front nks file solid = none := by
  obtain ⟨h1, h2⟩ := h
  subst h1 h2
  rfl

/-! ## Structure of the solid output -/

theorem foldl_bind_none {α β : Type} (f : α → β → Option α) (l : List β) :
    l.foldl (fun acc i => acc.bind (fun s => f s i)) none = none := by
  induction l with
  | nil => rfl
  | cons i t ih => simpa using ih

theorem foldl_bind_some {α β : Type} (f : α → β → Option α) (g : α → β → α) (l : List β)
    (h : ∀ i ∈ l, ∀ s, f s i = some (g s i)) :
    ∀ s, l.foldl (fun acc i => acc.bind (fun s => f s i)) (some s) = some (l.foldl g s) := by
  induction l with
  | nil => intro s; rfl
  | cons i t ih =>
    intro s
    simp only [List.foldl_cons, Option.some_bind]
    rw [h i (List.mem_cons_self _ _) s]
    exact ih (fun j hj => h j (List.mem_cons_of_mem _ hj)) _

theorem foldl_bind_trap {α β : Type} (f : α → β → Option α) (l : List β)
    (h : ∃ i ∈ l, ∀ s, f s i = none) :
    ∀ acc, l.foldl (fun acc i => acc.bind (fun s => f s i)) acc = none := by
  induction l with
  | nil =>
    obtain ⟨i, hi, _⟩ := h
    simp at hi
  | cons j t ih =>
    intro acc
    simp only [List.foldl_cons]
    obtain ⟨i, hi, hf⟩ := h
    rcases List.mem_cons.1 hi with hij | hit
    · subst hij
      have : acc.bind (fun s => f s i) = none := by
        cases acc with
        | none => rfl
        | some s => exact hf s
      rw [this]
      exact foldl_bind_none f t
    · exact ih ⟨i, hit, hf⟩ _

theorem foldl_append_flatten (c : Nat → List Nat) (l : List Nat) :
    ∀ s : List Nat, l.foldl (fun s i => s ++ c i) s = s ++ (l.map c).flatten := by
  induction l with
  | nil => intro s; simp
  | cons i t ih =>
    intro s
    simp only [List.foldl_cons, List.map_cons, List.flatten_cons]
    rw [ih, List.append_assoc]

/-- When no read of `kmers.front()` aborts, `DSK::fillSolidKmers` appends the
contributions of the partition files, in the order of the files. -/
theorem fillSolidKmers_defined (front : Nat → Option Nat) (Q nks : Nat)
    (disk : List (List Nat)) (solid : List Nat)
    (h : ∀ i, i < Q → disk.getD i [] ≠ [] ∨ (front i).isSome = true) :
    fillSolidKmers front Q nks disk solid =
      some (solid ++ ((List.range Q).map
        (fun i => gatherWith ((front i).getD 0) nks (disk.getD i []) [])).flatten) := by
  simp only [fillSolidKmers]
  rw [foldl_bind_some (fun s i => gatherPartition (front i) nks (disk.getD i []) s)
    (fun s i => s ++ gatherWith ((front i).getD 0) nks (disk.getD i []) []) (List.range Q)
    (fun i hi s => by
      beta_reduce
      rw [gatherPartition_defined _ _ _ _ (h i (List.mem_range.1 hi)), gatherWith_solid])]
  rw [foldl_append_flatten]

/-- When the read of `kmers.front()` aborts on some empty partition file,
`DSK::fillSolidKmers` aborts. -/
theorem fillSolidKmers_trap (front : Nat → Option Nat) (Q nks : Nat)
    (disk : List (List Nat)) (solid : List Nat)
    (h : ∃ i, i < Q ∧ disk.getD i [] = [] ∧ front i = none) :
    fillSolidKmers front Q nks disk solid = none := by
  obtain ⟨i, hi, hf⟩ := h
  simp only [fillSolidKmers]
  exact foldl_bind_trap (fun s i => gatherPartition (front i) nks (disk.getD i []) s)
    (List.range Q)
    ⟨i, List.mem_range.2 hi, fun s => gatherPartition_undefined _ _ _ s hf⟩ _

theorem fillPartitions_disk (P Q pass : Nat) (disk itSeq : List (List Nat)) :
    fillPartitions P Q pass disk itSeq = fillPartitions P Q pass [] itSeq := rfl

theorem passBody_defined (front : Nat → Nat → Option Nat) (P Q nks : Nat)
    (itSeq : List (List Nat)) (st : RunState) (pass : Nat)
    (h : ∀ q, q < Q →
      (fillPartitions P Q pass [] itSeq).getD q [] ≠ [] ∨ (front pass q).isSome = true) :
    passBody front P Q nks itSeq st pass =
      some { disk := fillPartitions P Q pass st.disk itSeq
             solidKmers := st.solidKmers ++
               passContribution (fun p q => (front p q).getD 0) P Q nks itSeq pass } := by
  simp only [passBody]
  rw [fillSolidKmers_defined (front pass) Q nks _ st.solidKmers
    (fun q hq => by rw [fillPartitions_disk]; exact h q hq)]
  rfl

theorem passBody_trap (front : Nat → Nat → Option Nat) (P Q nks : Nat)
    (itSeq : List (List Nat)) (st : RunState) (pass : Nat)
    (h : ∃ q, q < Q ∧ (fillPartitions P Q pass [] itSeq).getD q [] = [] ∧ front pass q = none) :
    passBody front P Q nks itSeq st pass = none := by
  obtain ⟨q, hq, hf⟩ := h
  simp only [passBody]
  rw [fillSolidKmers_trap (front pass) Q nks _ st.solidKmers
    ⟨q, hq, by rw [fillPartitions_disk]; exact hf⟩]
  rfl

theorem foldl_passContribution (c : Nat → List Nat) (d : RunState → Nat → List (List Nat))
    (l : List Nat) :
    ∀ st : RunState,
      (l.foldl (fun st pass => { disk := d st pass, solidKmers := st.solidKmers ++ c pass })
        st).solidKmers = st.solidKmers ++ (l.map c).flatten := by
  induction l with
  | nil => intro st; simp
  | cons p t ih =>
    intro st
    simp only [List.foldl_cons, List.map_cons, List.flatten_cons]
    rw [ih, List.append_assoc]

/-- When no read of `kmers.front()` aborts, the run completes and the solid
output is the concatenation of the contributions, pass-major then
partition-major. -/
theorem execute_defined (front : Nat → Nat → Option Nat) (P Q nks : Nat)
    (itSeq : List (List Nat)) (h : completes front P Q itSeq) :
    execute front P Q nks itSeq =
      some (solidOutput (fun p q => (front p q).getD 0) P Q nks itSeq) := by
  simp only [execute]
  rw [foldl_bind_some (fun s pass => passBody front P Q nks itSeq s pass)
    (fun st pass =>
      { disk := fillPartitions P Q pass st.disk itSeq
        solidKmers := st.solidKmers ++
          passContribution (fun p q => (front p q).getD 0) P Q nks itSeq pass })
    (List.range P)
    (fun pass hp st => passBody_defined front P Q nks itSeq st pass
      (h pass (List.mem_range.1 hp)))]
  simp only [Option.map_some']
  rw [foldl_passContribution
    (passContribution (fun p q => (front p q).getD 0) P Q nks itSeq)
    (fun st pass => fillPartitions P Q pass st.disk itSeq)]
  rfl

/-- When the read of `kmers.front()` aborts on some empty partition file of
some pass, the run aborts: there is no solid output. -/
theorem execute_trap (front : Nat → Nat → Option Nat) (P Q nks : Nat)
    (itSeq : List (List Nat))
    (h : ∃ pass, pass < P ∧ ∃ q, q < Q ∧
      (fillPartitions P Q pass [] itSeq).getD q [] = [] ∧ front pass q = none) :
    execute front P Q nks itSeq = none := by
  obtain ⟨pass, hp, hq⟩ := h
  simp only [execute]
  rw [foldl_bind_trap (fun s pass => passBody front P Q nks itSeq s pass) (List.range P)
    ⟨pass, List.mem_range.2 hp, fun st => passBody_trap front P Q nks itSeq st pass hq⟩]
  rfl

theorem completes_of_noEmptyPartition (front : Nat → Nat → Option Nat) (P Q : Nat)
    (itSeq : List (List Nat)) (h : noEmptyPartition P Q itSeq) : completes front P Q itSeq :=
  fun pass hp q hq => Or.inl (h pass hp q hq)

/-! ## Counting occurrences in the solid output -/

theorem sum_map_range_ite (n k v : Nat) :
    ((List.range n).map (fun i => if i = k then v else 0)).sum = if k < n then v else 0 := by
  induction n with
  | zero => simp
  | succ n ih =>
    rw [List.range_succ, List.map_append, List.sum_append, ih]
    simp only [List.map_cons, List.map_nil, List.sum_cons, List.sum_nil, Nat.add_zero]
    by_cases h1 : k < n
    · have h2 : n ≠ k := by omega
      have h3 : k < n + 1 := by omega
      simp [h1, h2, h3]
    · by_cases h2 : n = k
      · subst h2
        simp
      · have h3 : ¬ k < n + 1 := by omega
        simp [h1, h2, h3]

theorem count_filter_routed (P Q pass q x : Nat) (l : List Nat) :
    (l.filter (routed P Q pass q)).count x =
      if routed P Q pass q x = true then l.count x else 0 := by
  by_cases h : routed P Q pass q x = true
  · rw [if_pos h, List.count_filter h]
  · rw [if_neg h]
    apply List.count_eq_zero_of_not_mem
    intro hm
    exact h (List.mem_filter.1 hm).2

theorem mem_of_inBand_count (nks x : Nat) (l : List Nat) (hn : 1 ≤ nks)
    (h : inBand nks (l.count x % 2 ^ 32) = true) : x ∈ l := by
  rw [← List.count_pos_iff]
  by_contra h0
  have : l.count x = 0 := by omega
  rw [this] at h
  have := inBand_zero nks hn
  simp_all

theorem routed_iff (P Q pass q x : Nat) :
    routed P Q pass q x = true ↔ Hash x % P = pass ∧ Hash x / P % Q = q := by
  simp [routed]

/-- Occurrences of `x` in the contribution of partition `q` of pass `pass`,
when the partition is non-empty or `nks ≥ 1`. -/
theorem count_contribution (p : Nat → Nat → Nat) (P Q nks : Nat) (itSeq : List (List Nat))
    (pass q x : Nat) (hq : q < Q)
    (h : (fillPartitions P Q pass [] itSeq).getD q [] ≠ [] ∨ 1 ≤ nks) :
    (contribution p P Q nks itSeq pass q).count x =
      if routed P Q pass q x = true ∧ x ∈ stream itSeq ∧
        inBand nks ((stream itSeq).count x % 2 ^ 32) = true
      then 1 else 0 := by
  simp only [contribution]
  rw [count_gatherWith _ _ _ _ h, getD_fillPartitions _ _ _ _ _ _ hq, count_filter_routed]
  by_cases hr : routed P Q pass q x = true
  · rw [if_pos hr]
    by_cases hx : x ∈ stream itSeq
    · by_cases hb : inBand nks ((stream itSeq).count x % 2 ^ 32) = true
      · rw [if_pos ⟨List.mem_filter.2 ⟨hx, hr⟩, hb⟩, if_pos ⟨hr, hx, hb⟩]
      · rw [if_neg (fun h => hb h.2), if_neg (fun h => hb h.2.2)]
    · rw [if_neg (fun h => hx (List.mem_filter.1 h.1).1), if_neg (fun h => hx h.2.1)]
  · rw [if_neg (fun h => hr (List.mem_filter.1 h.1).2), if_neg (fun h => hr h.1)]

/-- Occurrences of `x` in the contributions of one pass. -/
theorem count_passContribution (p : Nat → Nat → Nat) (P Q nks : Nat)
    (itSeq : List (List Nat)) (pass x : Nat) (hQ : 1 ≤ Q)
    (h : ∀ q, q < Q → (fillPartitions P Q pass [] itSeq).getD q [] ≠ [] ∨ 1 ≤ nks) :
    (passContribution p P Q nks itSeq pass).count x =
      if pass = Hash x % P then
        (if x ∈ stream itSeq ∧ inBand nks ((stream itSeq).count x % 2 ^ 32) = true
          then 1 else 0)
      else 0 := by
  have hmap : (List.range Q).map (List.count x ∘ contribution p P Q nks itSeq pass) =
      (List.range Q).map (fun q => if q = Hash x / P % Q then
        (if pass = Hash x % P then
          (if x ∈ stream itSeq ∧ inBand nks ((stream itSeq).count x % 2 ^ 32) = true
            then 1 else 0)
        else 0) else 0) := by
    apply List.map_congr_left
    intro q hq
    have hq' : q < Q := List.mem_range.1 hq
    simp only [Function.comp_apply]
    rw [count_contribution p P Q nks itSeq pass q x hq' (h q hq')]
    by_cases h1 : q = Hash x / P % Q
    · by_cases h2 : pass = Hash x % P
      · by_cases hb : x ∈ stream itSeq ∧
            inBand nks ((stream itSeq).count x % 2 ^ 32) = true
        · rw [if_pos ⟨(routed_iff _ _ _ _ _).2 ⟨h2.symm, h1.symm⟩, hb⟩, if_pos h1, if_pos h2,
            if_pos hb]
        · rw [if_neg (fun h => hb h.2), if_pos h1, if_pos h2, if_neg hb]
      · rw [if_neg (fun h => h2 ((routed_iff _ _ _ _ _).1 h.1).1.symm), if_pos h1, if_neg h2]
    · rw [if_neg (fun h => h1 ((routed_iff _ _ _ _ _).1 h.1).2.symm), if_neg h1]
  rw [passContribution, List.count_flatten, List.map_map, hmap, sum_map_range_ite,
    if_pos (Nat.mod_lt _ hQ)]

/-- Occurrences of `x` in the solid output of a run that completes, with the
32-bit abundance counter of the source, when no partition is empty or
`nks ≥ 1`: `x` is present once if it occurs in the stream and the number of
its occurrences, reduced modulo `2 ^ 32`, lies in the band, and is absent
otherwise. -/
theorem count_solidOutput (p : Nat → Nat → Nat) (P Q nks : Nat) (itSeq : List (List Nat))
    (x : Nat) (hP : 1 ≤ P) (hQ : 1 ≤ Q) (h : noEmptyPartition P Q itSeq ∨ 1 ≤ nks) :
    (solidOutput p P Q nks itSeq).count x =
      if x ∈ stream itSeq ∧ inBand nks ((stream itSeq).count x % 2 ^ 32) = true
      then 1 else 0 := by
  have hmap : (List.range P).map (List.count x ∘ passContribution p P Q nks itSeq) =
      (List.range P).map (fun pass => if pass = Hash x % P then
        (if x ∈ stream itSeq ∧ inBand nks ((stream itSeq).count x % 2 ^ 32) = true
          then 1 else 0) else 0) := by
    apply List.map_congr_left
    intro pass hpass
    simp only [Function.comp_apply]
    refine count_passContribution p P Q nks itSeq pass x hQ (fun q hq => ?_)
    rcases h with h | h
    · exact Or.inl (h pass (List.mem_range.1 hpass) q hq)
    · exact Or.inr h
  rw [solidOutput, List.count_flatten, List.map_map, hmap, sum_map_range_ite,
    if_pos (Nat.mod_lt _ hP)]

/-- The same for `nks ≥ 1`, where membership in the stream follows from the
band. -/
theorem count_solidOutput_of_nks (p : Nat → Nat → Nat) (P Q nks : Nat)
    (itSeq : List (List Nat)) (x : Nat) (hP : 1 ≤ P) (hQ : 1 ≤ Q) (hn : 1 ≤ nks) :
    (solidOutput p P Q nks itSeq).count x =
      if inBand nks ((stream itSeq).count x % 2 ^ 32) = true then 1 else 0 := by
  rw [count_solidOutput p P Q nks itSeq x hP hQ (Or.inr hn)]
  by_cases hb : inBand nks ((stream itSeq).count x % 2 ^ 32) = true
  · rw [if_pos ⟨mem_of_inBand_count nks x _ hn hb, hb⟩, if_pos hb]
  · rw [if_neg (fun h => hb h.2), if_neg hb]

/-! ## Planner lemmas -/

/-- The disk budget computed by lines 270-272 is never zero, so that line 274
does not divide by zero. -/
theorem maxDiskSpace_pos (available_space bankSize : Nat) :
    1 ≤ maxDiskSpace available_space bankSize := by
  simp only [maxDiskSpace]
  split <;> omega

/-- What a returned plan satisfies: the loop stopped at the first pass count,
from `P0` on, whose partition count is below `max_open_files`. -/
theorem configureLoop_ret (V M F2 : Nat) :
    ∀ (fuel P0 P Q : Nat), configureLoop V M F2 fuel P0 = Plan.ret P Q →
      1 ≤ M ∧ 1 ≤ P0 ∧ P0 ≤ P ∧ Q = V / P / M + 1 ∧ Q < F2 ∧
        ∀ P', P0 ≤ P' → P' < P → F2 ≤ V / P' / M + 1 := by
  intro fuel
  induction fuel with
  | zero => intro P0 P Q h; simp [configureLoop] at h
  | succ n ih =>
    intro P0 P Q h
    simp only [configureLoop] at h
    by_cases hz : P0 = 0 ∨ M = 0
    · simp [hz] at h
    · rw [if_neg hz] at h
      have hP0 : 1 ≤ P0 := by omega
      have hM : 1 ≤ M := by omega
      by_cases hq : V / P0 / M + 1 ≥ F2
      · simp only [hq, if_true] at h
        obtain ⟨_, _, h3, h4, h5, h6⟩ := ih (P0 + 1) P Q h
        refine ⟨hM, hP0, by omega, h4, h5, ?_⟩
        intro P' h1 h2
        by_cases he : P' = P0
        · subst he; exact hq
        · exact h6 P' (by omega) h2
      · simp only [hq, if_false] at h
        injection h with h1 h2
        subst h1 h2
        exact ⟨hM, hP0, le_refl _, rfl, by omega, fun P' h1 h2 => by omega⟩

/-- With room for at least one partition file (`max_open_files ≥ 2`) the loop
returns within `n + 1` iterations as soon as `P0 + n` exceeds the volume. -/
theorem configureLoop_returns (V M F2 : Nat) (hM : 1 ≤ M) (hF : 2 ≤ F2) :
    ∀ (n P0 : Nat), 1 ≤ P0 → V + 1 ≤ P0 + n →
      ∃ P Q, configureLoop V M F2 (n + 1) P0 = Plan.ret P Q := by
  intro n
  induction n with
  | zero =>
    intro P0 hP0 hV
    have hdiv : V / P0 = 0 := Nat.div_eq_of_lt (by omega)
    refine ⟨P0, 1, ?_⟩
    have hz : ¬ (P0 = 0 ∨ M = 0) := by omega
    rw [configureLoop, if_neg hz]
    simp only [hdiv, Nat.zero_div, Nat.zero_add]
    rw [if_neg (by omega)]
  | succ n ih =>
    intro P0 hP0 hV
    have hz : ¬ (P0 = 0 ∨ M = 0) := by omega
    by_cases hq : V / P0 / M + 1 ≥ F2
    · obtain ⟨P, Q, h⟩ := ih (P0 + 1) (by omega) (by omega)
      refine ⟨P, Q, ?_⟩
      rw [configureLoop, if_neg hz]
      simp only [hq, if_true]
      exact h
    · refine ⟨P0, V / P0 / M + 1, ?_⟩
      rw [configureLoop, if_neg hz]
      simp only [hq, if_false]

/-- With `max_open_files ≥ 2` the returned pass count is at most
`max P0 (V + 1)`: the pass counter does not run away. -/
theorem configureLoop_ret_le (V M F2 fuel P0 P Q : Nat) (hF : 2 ≤ F2)
    (h : configureLoop V M F2 fuel P0 = Plan.ret P Q) : P ≤ max P0 (V + 1) := by
  obtain ⟨_, _, _, _, _, hmin⟩ := configureLoop_ret V M F2 fuel P0 P Q h
  by_contra hlt
  have h1 : P0 < P := by
    have := le_max_left P0 (V + 1)
    omega
  have h2 : V + 1 < P := by
    have := le_max_right P0 (V + 1)
    omega
  have h3 := hmin (P - 1) (by omega) (by omega)
  have hdiv : V / (P - 1) = 0 := Nat.div_eq_of_lt (by omega)
  rw [hdiv, Nat.zero_div] at h3
  omega

/-- Without room for a partition file (`max_open_files ≤ 1`) the loop never
returns a plan. -/
theorem configureLoop_no_plan (V M F2 : Nat) (hF : F2 ≤ 1) :
    ∀ (fuel P0 P Q : Nat), configureLoop V M F2 fuel P0 ≠ Plan.ret P Q := by
  intro fuel P0 P Q h
  obtain ⟨_, _, _, h4, h5, _⟩ := configureLoop_ret V M F2 fuel P0 P Q h
  generalize V / P / M = w at h4
  omega

/-! ## Runs in which no read of `kmers.front()` aborts -/

/-- Exactness of the pass loop on the runs that complete: for a stream of
fewer than `2 ^ 32` k-mers, `P ≥ 1`, `Q ≥ 1` and `nks ≥ 1`, the run yields a
solid output, which contains `x` exactly once if
`nks ≤ count (x, stream) ≤ 2 ^ 31 - 2` and not at all otherwise. -/
theorem execute_exact_of_completes (front : Nat → Nat → Option Nat) (P Q nks : Nat)
    (itSeq : List (List Nat)) (hP : 1 ≤ P) (hQ : 1 ≤ Q) (hn : 1 ≤ nks)
    (hlen : (stream itSeq).length < 2 ^ 32) (hc : completes front P Q itSeq) :
    ∃ out, execute front P Q nks itSeq = some out ∧
      ∀ x, out.count x =
        if nks ≤ (stream itSeq).count x ∧ (stream itSeq).count x ≤ 2 ^ 31 - 2 then 1 else 0 := by
  refine ⟨_, execute_defined front P Q nks itSeq hc, fun x => ?_⟩
  have hm : (stream itSeq).count x % 2 ^ 32 = (stream itSeq).count x :=
    Nat.mod_eq_of_lt (lt_of_le_of_lt (List.count_le_length _ _) hlen)
  rw [count_solidOutput_of_nks _ P Q nks itSeq x hP hQ hn, hm]
  by_cases h : nks ≤ (stream itSeq).count x ∧ (stream itSeq).count x ≤ 2 ^ 31 - 2
  · rw [if_pos ((inBand_iff _ _).2 h), if_pos h]
  · rw [if_neg (fun hb => h ((inBand_iff _ _).1 hb)), if_neg h]

/-- Gather on a non-empty partition file of fewer than `2 ^ 32` k-mers, with
`nks ≥ 1`: the gather returns, it only appends, the appended k-mers are in
strictly ascending order and contain `v` exactly once if
`nks ≤ count (v, file) ≤ 2 ^ 31 - 2`, and not at all otherwise. -/
theorem gather_exact_of_ne (front : Option Nat) (nks : Nat) (file solid : List Nat)
    (hne : file ≠ []) (hlen : file.length < 2 ^ 32) (hn : 1 ≤ nks) :
    ∃ out, gatherPartition front nks file solid = some (solid ++ out) ∧
      out.Sorted (· < ·) ∧
      ∀ v, out.count v =
        if nks ≤ file.count v ∧ file.count v ≤ 2 ^ 31 - 2 then 1 else 0 := by
  refine ⟨gatherWith 0 nks file [], ?_, sorted_gatherWith 0 nks file, fun v => ?_⟩
  · rw [gatherPartition_of_ne front 0 nks file solid hne, gatherWith_solid]
  · have hc : file.count v % 2 ^ 32 = file.count v :=
      Nat.mod_eq_of_lt (lt_of_le_of_lt (List.count_le_length _ _) hlen)
    rw [count_gatherWith 0 nks file v (Or.inr hn), hc]
    by_cases h : nks ≤ file.count v ∧ file.count v ≤ 2 ^ 31 - 2
    · have hm : v ∈ file := List.count_pos_iff.1 (by omega)
      rw [if_pos ⟨hm, (inBand_iff _ _).2 h⟩, if_pos h]
    · rw [if_neg (fun hb => h ((inBand_iff _ _).1 hb.2)), if_neg h]

/-- Order independence of gather on non-empty partition files: for every
`nks`, the gather of a permutation `ys` of a non-empty `xs` returns, and
returns the same bag as the gather of `xs`. -/
theorem gather_order_of_ne (front front' : Option Nat) (nks : Nat) (xs ys solid : List Nat)
    (hp : ys.Perm xs) (hne : xs ≠ []) :
    gatherPartition front nks ys solid = gatherPartition front' nks xs solid ∧
    gatherPartition front' nks xs solid = some (gatherWith 0 nks xs solid) := by
  have hne' : ys ≠ [] := fun h => hne (List.perm_nil.1 (h ▸ hp.symm))
  rw [gatherPartition_of_ne front 0 nks ys solid hne',
    gatherPartition_of_ne front' 0 nks xs solid hne,
    gatherWith_congr 0 0 nks xs ys solid hp (Or.inl hne)]
  exact ⟨rfl, rfl⟩

/-- Plan independence on the runs that complete. -/
theorem plan_independence_of_completes (front front' : Nat → Nat → Option Nat)
    (P Q P' Q' nks : Nat) (itSeq : List (List Nat))
    (hP : 1 ≤ P) (hQ : 1 ≤ Q) (hP' : 1 ≤ P') (hQ' : 1 ≤ Q') (hn : 1 ≤ nks)
    (hc : completes front P Q itSeq) (hc' : completes front' P' Q' itSeq) :
    ∃ out out', execute front P Q nks itSeq = some out ∧
      execute front' P' Q' nks itSeq = some out' ∧ out.Perm out' := by
  refine ⟨_, _, execute_defined front P Q nks itSeq hc,
    execute_defined front' P' Q' nks itSeq hc', ?_⟩
  rw [List.perm_iff_count]
  intro x
  rw [count_solidOutput_of_nks _ P Q nks itSeq x hP hQ hn,
    count_solidOutput_of_nks _ P' Q' nks itSeq x hP' hQ' hn]

/-- Determinism under reordering of the stream, on the runs with no empty
partition: for every `nks`, both runs complete with the same solid output. -/
theorem determinism_of_noEmptyPartition (front front' : Nat → Nat → Option Nat)
    (P Q nks : Nat) (itSeq itSeq' : List (List Nat))
    (hperm : (stream itSeq).Perm (stream itSeq')) (hne : noEmptyPartition P Q itSeq') :
    ∃ out, execute front P Q nks itSeq = some out ∧
      execute front' P Q nks itSeq' = some out := by
  have hfile : ∀ pass q, q < Q →
      ((fillPartitions P Q pass [] itSeq).getD q []).Perm
        ((fillPartitions P Q pass [] itSeq').getD q []) := by
    intro pass q hq
    rw [getD_fillPartitions _ _ _ _ _ _ hq, getD_fillPartitions _ _ _ _ _ _ hq]
    exact hperm.filter _
  have hne0 : noEmptyPartition P Q itSeq := by
    intro pass hp q hq h
    have := hfile pass q hq
    rw [h] at this
    exact hne pass hp q hq (List.perm_nil.1 this.symm)
  refine ⟨_, execute_defined front P Q nks itSeq
    (completes_of_noEmptyPartition front P Q itSeq hne0), ?_⟩
  rw [execute_defined front' P Q nks itSeq'
    (completes_of_noEmptyPartition front' P Q itSeq' hne)]
  congr 1
  simp only [solidOutput]
  congr 1
  apply List.map_congr_left
  intro pass hpass
  simp only [passContribution]
  congr 1
  apply List.map_congr_left
  intro q hq
  simp only [contribution]
  exact (gatherWith_congr _ _ nks _ _ [] (hfile pass q (List.mem_range.1 hq))
    (Or.inl (hne pass (List.mem_range.1 hpass) q (List.mem_range.1 hq)))).symm

/-! ## The claims -/

/-- C1, evaluated on runs that leave a partition empty.  Under the plan
`(2, 3)` the stream of the read `ACGTACGT` (six k-mers, `ACG` four times)
leaves partitions `0` and `2` of pass `0` empty, the pass loop with `nks = 3`
aborts at `kmers.front()` and there is no solid output, although `ACG` has its
count in the band; likewise for the empty bank under the plan `(1, 1)`. -/
theorem execute_aborts_on_empty_partition :
    (stream [readACGTACGT]).length < 2 ^ 32 ∧
    3 ≤ (stream [readACGTACGT]).count ACG ∧ (stream [readACGTACGT]).count ACG ≤ 2 ^ 31 - 2 ∧
    fillPartitions 2 3 0 [] [readACGTACGT] = [[], [TAC, TAC], []] ∧
    execute trap 2 3 3 [readACGTACGT] = none ∧
    execute trap 1 1 3 [] = none := by
  decide

/-- C2. Scatter routing and partition disjointness: for `P ≥ 1` and `Q ≥ 1`
the pass creates `Q` partition files, the target pass `Hash x % P` is below
`P`, the target partition `(Hash x / P) % Q` is below `Q`, and for every pass
and every partition index the file holds the value `x` as many times as `x`
occurs in the stream if it is the target of `x`, and not at all otherwise. -/
theorem scatter_routing (P Q : Nat) (disk itSeq : List (List Nat)) (pass q x : Nat)
    (hP : 1 ≤ P) (hQ : 1 ≤ Q) :
    (fillPartitions P Q pass disk itSeq).length = Q ∧
    Hash x % P < P ∧ Hash x / P % Q < Q ∧
    ((fillPartitions P Q pass disk itSeq).getD q []).count x =
      if pass = Hash x % P ∧ q = Hash x / P % Q then (stream itSeq).count x else 0 := by
  refine ⟨length_fillPartitions P Q pass disk itSeq, Nat.mod_lt _ hP, Nat.mod_lt _ hQ, ?_⟩
  by_cases hq : q < Q
  · rw [getD_fillPartitions P Q pass q disk itSeq hq, count_filter_routed]
    by_cases hr : routed P Q pass q x = true
    · have h := (routed_iff _ _ _ _ _).1 hr
      rw [if_pos hr, if_pos ⟨h.1.symm, h.2.symm⟩]
    · rw [if_neg hr, if_neg (fun h => hr ((routed_iff _ _ _ _ _).2 ⟨h.1.symm, h.2.symm⟩))]
  · have hlen := length_fillPartitions P Q pass disk itSeq
    have hq0 := Nat.mod_lt (Hash x / P) hQ
    rw [List.getD_eq_default _ _ (by omega), if_neg (fun h => by omega)]
    rfl

theorem scatter_routing_witness :
    (fillPartitions 2 3 1 [] [readACGTACGT]).length = 3 ∧
    Hash ACG % 2 < 2 ∧ Hash ACG / 2 % 3 < 3 ∧
    ((fillPartitions 2 3 1 [] [readACGTACGT]).getD 0 []).count ACG =
      if 1 = Hash ACG % 2 ∧ 0 = Hash ACG / 2 % 3 then (stream [readACGTACGT]).count ACG
      else 0 :=
  scatter_routing 2 3 [] [readACGTACGT] 1 0 ACG (by decide) (by decide)

/-- C3. Planner postcondition: whenever `DSK::configure` returns a plan
`(P, Q)` for a volume `V`, a disk budget `D`, a memory budget `M` and an
open-file limit `F`, then `P ≥ 1`, `Q ≥ 1`, `Q < F / 2` and
`V / (P * Q) ≤ M`. -/
theorem configure_postcondition (fuel V D M F P Q : Nat)
    (h : configure fuel V D M F = Plan.ret P Q) :
    1 ≤ P ∧ 1 ≤ Q ∧ Q < F / 2 ∧ V / (P * Q) ≤ M := by
  simp only [configure] at h
  by_cases hD : D = 0
  · simp [hD] at h
  · rw [if_neg hD] at h
    obtain ⟨hM, h0, h1, h2, h3, _⟩ := configureLoop_ret V M (F / 2) fuel (V / D + 1) P Q h
    have hQ : 1 ≤ Q := by rw [h2]; exact Nat.le_add_left 1 _
    refine ⟨by omega, hQ, h3, ?_⟩
    rw [← Nat.div_div_eq_div_mul]
    have hw : V / P < Q * M := by
      rw [h2]
      exact Nat.lt_mul_of_div_lt (Nat.lt_succ_self _) (by omega)
    have : V / P / Q < M := by
      rw [Nat.div_lt_iff_lt_mul (by omega)]
      rw [Nat.mul_comm]
      exact hw
    omega

theorem configure_postcondition_witness :
    1 ≤ 101 ∧ 1 ≤ 4 ∧ 4 < 10 / 2 ∧ 1000 / (101 * 4) ≤ 3 :=
  configure_postcondition 100 1000 10 3 10 101 4 (by decide)

/-- C4, evaluated on the empty partition file: with `nks = 1` and with
`nks = 3` the gather aborts at `kmers.front()` (nothing is appended, but the
step does not return either), while on the non-empty file `[TAC, ACG, TAC]`
with `nks = 2` it appends `TAC`. -/
theorem gather_aborts_on_empty_file :
    gatherPartition none 1 [] [] = none ∧ gatherPartition none 3 [] [5] = none ∧
    gatherPartition none 2 [TAC, ACG, TAC] [5] = some [5, TAC] := by
  decide

/-- C5, as stated, fails: with an open-file limit `F = 3` (so that
`max_open_files = F / 2 = 1`) the loop of `DSK::configure` returns no plan,
however many iterations it is given (here `V = 1000`, `D = 10`, `M = 3`). -/
theorem configure_loop_diverges :
    (¬ ∃ fuel P Q, configureLoop 1000 3 (3 / 2) fuel (1000 / 10 + 1) = Plan.ret P Q) ∧
    (∀ fuel, configure fuel 1000 10 3 3 = Plan.outOfFuel) := by
  have hno : ∀ fuel P0, 1 ≤ P0 → configureLoop 1000 3 (3 / 2) fuel P0 = Plan.outOfFuel := by
    intro fuel
    induction fuel with
    | zero => intro P0 _; rfl
    | succ n ih =>
      intro P0 hP0
      rw [configureLoop, if_neg (by omega)]
      have hq : 1000 / P0 / 3 + 1 ≥ 3 / 2 := by
        generalize 1000 / P0 / 3 = w
        omega
      simp only [hq, if_true]
      exact ih (P0 + 1) (by omega)
  constructor
  · rintro ⟨fuel, P, Q, h⟩
    exact configureLoop_no_plan 1000 3 (3 / 2) (by decide) fuel _ P Q h
  · intro fuel
    exact hno fuel _ (by decide)

/-- C5, amended. Planner termination: for every volume `V`, disk budget `D`,
memory budget `M ≥ 1` and every open-file limit `F` with `F / 2 ≥ 2`, the
do-while loop of `DSK::configure`, started from `V / D + 1` passes, returns a
plan after at most `V + 1` iterations (and so does `configure` when
`D ≥ 1`). -/
theorem configure_loop_terminates (V D M F : Nat) (hM : 1 ≤ M) (hF : 2 ≤ F / 2) :
    ∃ fuel P Q, fuel ≤ V + 1 ∧
      configureLoop V M (F / 2) fuel (V / D + 1) = Plan.ret P Q ∧
      (1 ≤ D → configure fuel V D M F = Plan.ret P Q) := by
  obtain ⟨P, Q, h⟩ := configureLoop_returns V M (F / 2) hM hF V (V / D + 1)
    (Nat.le_add_left 1 _) (by generalize V / D = w; omega)
  refine ⟨V + 1, P, Q, le_refl _, h, ?_⟩
  intro hD
  rw [configure, if_neg (by omega)]
  exact h

theorem configure_loop_terminates_witness :
    ∃ fuel P Q, fuel ≤ 1000 + 1 ∧
      configureLoop 1000 3 (10 / 2) fuel (1000 / 10 + 1) = Plan.ret P Q ∧
      (1 ≤ 10 → configure fuel 1000 10 3 10 = Plan.ret P Q) :=
  configure_loop_terminates 1000 10 3 10 (by decide) (by decide)

theorem count_readACGTACGT (a : Nat) :
    (stream [readACGTACGT]).count a = if a = ACG then 4 else if a = TAC then 2 else 0 := by
  have h1 : ACG = 7 := by decide
  have h2 : TAC = 33 := by decide
  simp only [stream, readACGTACGT, h1, h2, List.flatten_cons, List.flatten_nil,
    List.append_nil]
  by_cases h7 : a = 7
  · subst h7; decide
  · by_cases h33 : a = 33
    · subst h33; decide
    · have e1 : (7 == a) = false := by simpa using Ne.symm h7
      have e2 : (33 == a) = false := by simpa using Ne.symm h33
      simp [List.count_cons, h7, h33, e1, e2]

/-- Scenarios S1 and S2 on the runs that complete: for every plan `P ≥ 1`,
`Q ≥ 1` under which no read aborts, the solid output consists of `ACG` and
`TAC` (each once) when `nks = 1`, and of `ACG` alone when `nks = 3`. -/
theorem scenario_of_completes (front : Nat → Nat → Option Nat) (P Q : Nat) (hP : 1 ≤ P)
    (hQ : 1 ≤ Q) (hc : completes front P Q [readACGTACGT]) :
    ∃ out1 out3, execute front P Q 1 [readACGTACGT] = some out1 ∧ out1.Perm [ACG, TAC] ∧
      execute front P Q 3 [readACGTACGT] = some out3 ∧ out3.Perm [ACG] := by
  refine ⟨_, _, execute_defined front P Q 1 _ hc, ?_, execute_defined front P Q 3 _ hc, ?_⟩
  · rw [List.perm_iff_count]
    intro a
    rw [count_solidOutput_of_nks _ P Q 1 _ a hP hQ (le_refl _), count_readACGTACGT]
    by_cases ha : a = ACG
    · subst ha; decide
    · by_cases hb : a = TAC
      · subst hb; decide
      · rw [if_neg ha, if_neg hb, List.count_cons_of_ne ha, List.count_cons_of_ne hb,
          List.count_nil]
        decide
  · rw [List.perm_iff_count]
    intro a
    rw [count_solidOutput_of_nks _ P Q 3 _ a hP hQ (by decide), count_readACGTACGT]
    by_cases ha : a = ACG
    · subst ha; decide
    · by_cases hb : a = TAC
      · subst hb; decide
      · rw [if_neg ha, if_neg hb, List.count_cons_of_ne ha, List.count_nil]
        decide

/-- Round trip on the runs that complete: for `P ≥ 1`, `Q ≥ 1` and `nks ≥ 1`,
if the run on `s` yields the solid output `out` and the run with `nks = 1` on a
bank whose stream is `out` completes, its solid output is a rearrangement of
`out`. -/
theorem round_trip_of_completes (front front' : Nat → Nat → Option Nat) (P Q nks : Nat)
    (itSeq itSeq' : List (List Nat)) (out : List Nat) (hP : 1 ≤ P) (hQ : 1 ≤ Q)
    (hn : 1 ≤ nks) (hc : completes front P Q itSeq)
    (hout : execute front P Q nks itSeq = some out) (hs : stream itSeq' = out)
    (hc' : completes front' P Q itSeq') :
    ∃ out', execute front' P Q 1 itSeq' = some out' ∧ out'.Perm out := by
  refine ⟨_, execute_defined front' P Q 1 itSeq' hc', ?_⟩
  rw [execute_defined front P Q nks itSeq hc] at hout
  have hout' : out = solidOutput (fun p q => (front p q).getD 0) P Q nks itSeq :=
    (Option.some.inj hout).symm
  rw [List.perm_iff_count]
  intro x
  rw [count_solidOutput_of_nks _ P Q 1 itSeq' x hP hQ (le_refl _), hs, hout',
    count_solidOutput_of_nks _ P Q nks itSeq x hP hQ hn]
  by_cases hb : inBand nks ((stream itSeq).count x % 2 ^ 32) = true
  · rw [if_pos hb]
    rfl
  · rw [if_neg hb]
    rfl

/-- C12, evaluated on the empty partition: with `nks = 0`, if the read of
`kmers.front()` on the empty buffer delivers a value, the gather appends that
value, since the final test `0 >= 0 && 0 <= max_couv` holds; with a threshold
`nks + 1 ≥ 1` it then appends nothing; and if the read aborts, the gather
aborts for every `nks`. -/
theorem empty_partition_emits (front : Nat) (solid : List Nat) :
    gatherPartition (some front) 0 [] solid = some (solid ++ [front]) ∧
    (∀ nks, gatherPartition (some front) (nks + 1) [] solid = some solid) ∧
    ∀ nks, gatherPartition none nks [] solid = none := by
  refine ⟨rfl, ?_, fun nks => rfl⟩
  intro nks
  rw [gatherPartition_defined (some front) (nks + 1) [] solid (Or.inr rfl), gatherWith_solid,
    gatherWith_nil,
    inBand_zero (nks + 1) (Nat.le_add_left 1 nks)]
  simp

/-- C13, as stated, fails: with the option `-nks 0`, plan `(1, 1)` and the
one-k-mer stream `[ACG]`, the pass loop runs and the k-mer `ACG` is emitted. -/
theorem nks_zero_emits :
    nksOf (some 0) < 1 ∧ execute trap 1 1 (nksOf (some 0)) [[ACG]] = some [ACG] := by
  decide

/-- C13, amended. No validation of `nks`: for `nks = 0` and every plan
`P ≥ 1`, `Q ≥ 1` under which no partition of any pass stays empty, the pass
loop of `DSK::execute` completes, and its solid output contains exactly once
each k-mer of the stream whose number of occurrences, as counted by the 32-bit
counter, is at most `2 ^ 31 - 2`, and nothing else. -/
theorem nks_not_validated (front : Nat → Nat → Option Nat) (P Q : Nat)
    (itSeq : List (List Nat)) (x : Nat) (hP : 1 ≤ P) (hQ : 1 ≤ Q)
    (hne : noEmptyPartition P Q itSeq) :
    ∃ out, execute front P Q (nksOf (some 0)) itSeq = some out ∧
      out.count x =
        if x ∈ stream itSeq ∧ (stream itSeq).count x % 2 ^ 32 ≤ 2 ^ 31 - 2 then 1 else 0 := by
  refine ⟨_, execute_defined front P Q _ itSeq
    (completes_of_noEmptyPartition front P Q itSeq hne), ?_⟩
  rw [count_solidOutput _ P Q _ itSeq x hP hQ (Or.inl hne)]
  by_cases h : x ∈ stream itSeq ∧ (stream itSeq).count x % 2 ^ 32 ≤ 2 ^ 31 - 2
  · rw [if_pos ⟨h.1, (inBand_iff _ _).2 ⟨Nat.zero_le _, h.2⟩⟩, if_pos h]
  · rw [if_neg (fun hb => h ⟨hb.1, ((inBand_iff _ _).1 hb.2).2⟩), if_neg h]

theorem nks_not_validated_witness :
    ∃ out, execute trap 1 2 (nksOf (some 0)) [readACGTACGT] = some out ∧
      out.count TAC =
        if TAC ∈ stream [readACGTACGT] ∧
          (stream [readACGTACGT]).count TAC % 2 ^ 32 ≤ 2 ^ 31 - 2 then 1 else 0 :=
  nks_not_validated trap 1 2 [readACGTACGT] TAC (by decide) (by decide)
    (by unfold noEmptyPartition; decide)

/-- C15, evaluated on a partition file that holds `2 ^ 32 + 1` copies of
`ACG`, with `nks = 1`: the gather returns, the 32-bit counter has wrapped to
`1` at the end of the run, the final test holds, and `ACG` is appended
although it occurs more than `max_couv = 2 ^ 31 - 2` times. -/
theorem abundance_counter_wraps :
    bigRun.count ACG = 2 ^ 32 + 1 ∧ max_couv < bigRun.count ACG ∧
    ∀ front, ∃ out, gatherPartition front 1 bigRun [] = some out ∧
      out.count ACG = 1 ∧ ACG ∈ out := by
  have hcount : bigRun.count ACG = 2 ^ 32 + 1 := List.count_replicate_self _ _
  have hmem : ACG ∈ bigRun := List.count_pos_iff.1 (by rw [hcount]; exact Nat.succ_pos _)
  have hb : inBand 1 (bigRun.count ACG % 2 ^ 32) = true := by
    rw [hcount]
    decide
  have hone : (gatherWith 0 1 bigRun []).count ACG = 1 := by
    rw [count_gatherWith 0 1 bigRun ACG (Or.inr (le_refl _)), if_pos ⟨hmem, hb⟩]
  refine ⟨hcount, ?_, fun front => ⟨gatherWith 0 1 bigRun [],
    gatherPartition_of_ne front 0 1 bigRun [] (List.ne_nil_of_mem hmem), hone,
    List.count_pos_iff.1 (by rw [hone]; exact Nat.one_pos)⟩⟩
  rw [hcount]
  decide

/-- C16, as stated, fails: after the pass body (scatter, then
`DSK::fillSolidKmers`) has run for pass `0` of plan `(1, 1)` on the stream
`[ACG]`, partition file `0` still holds `ACG`: it has not been deleted. -/
theorem partition_not_deleted :
    passBody trap 1 1 1 [[ACG]] { disk := [], solidKmers := [] } 0 =
      some { disk := [[ACG]], solidKmers := [ACG] } ∧
    ([[ACG]] : List (List Nat)).getD 0 [] ≠ [] := by
  decide

/-- C16, amended. Partition lifecycle: `DSK::fillSolidKmers` leaves the
partition files as the scatter of the pass wrote them; they are emptied when
`DSK::fillPartitions` creates the partition set of a pass, so that the
partition `q < Q` read by gather holds exactly the k-mers that
`FillPartitions` wrote during that pass, whatever the disk held before. -/
theorem partition_lifecycle (front : Nat → Nat → Option Nat) (P Q nks : Nat)
    (itSeq : List (List Nat)) (st : RunState) (pass q : Nat) (hq : q < Q) :
    passBody front P Q nks itSeq st pass =
      (fillSolidKmers (front pass) Q nks (fillPartitions P Q pass st.disk itSeq)
        st.solidKmers).map
        (fun solid => { disk := fillPartitions P Q pass st.disk itSeq, solidKmers := solid }) ∧
    (fillPartitions P Q pass st.disk itSeq).getD q [] =
      (stream itSeq).filter (routed P Q pass q) :=
  ⟨rfl, getD_fillPartitions P Q pass q st.disk itSeq hq⟩

theorem partition_lifecycle_witness :
    passBody trap 1 1 1 [[ACG]] { disk := [[TAC, TAC]], solidKmers := [] } 0 =
      (fillSolidKmers (trap 0) 1 1 (fillPartitions 1 1 0 [[TAC, TAC]] [[ACG]]) []).map
        (fun solid =>
          { disk := fillPartitions 1 1 0 [[TAC, TAC]] [[ACG]], solidKmers := solid }) ∧
    (fillPartitions 1 1 0 [[TAC, TAC]] [[ACG]]).getD 0 [] =
      (stream [[ACG]]).filter (routed 1 1 0 0) :=
  partition_lifecycle trap 1 1 1 [[ACG]] { disk := [[TAC, TAC]], solidKmers := [] }
    0 0 (by decide)

/-- C17. Monotonicity of the partition count: for `M ≥ 1` and pass counts
`1 ≤ P ≤ P'`, the partition count `Q (P) = (V / P) / M + 1` of the planner
satisfies `Q (P') ≤ Q (P)`. -/
theorem nbPartitions_antitone (V M P P' : Nat) (_hM : 1 ≤ M) (hP : 1 ≤ P) (hPP : P ≤ P') :
    nbPartitions V M P' ≤ nbPartitions V M P := by
  simp only [nbPartitions]
  exact Nat.succ_le_succ (Nat.div_le_div_right (Nat.div_le_div_left hPP hP))

theorem nbPartitions_antitone_witness : nbPartitions 1000 3 7 ≤ nbPartitions 1000 3 2 :=
  nbPartitions_antitone 1000 3 2 7 (by decide) (by decide) (by decide)

/-- C19. Minimality of the plan: when `DSK::configure` returns `(P, Q)` for
`D ≥ 1` and `M ≥ 1`, then `P` is the least pass count `≥ V / D + 1` with
`(V / P) / M + 1 < F / 2`, and `Q = (V / P) / M + 1`; in particular, when
`V / D + 1` already meets the test, `P = V / D + 1`, and the planner returns
this plan after one iteration. -/
theorem plan_minimal (fuel V D M F P Q : Nat) (hD : 1 ≤ D) (hM : 1 ≤ M)
    (h : configure fuel V D M F = Plan.ret P Q) :
    V / D + 1 ≤ P ∧ nbPartitions V M P < F / 2 ∧
    (∀ P', V / D + 1 ≤ P' → nbPartitions V M P' < F / 2 → P ≤ P') ∧
    Q = nbPartitions V M P ∧
    (nbPartitions V M (V / D + 1) < F / 2 →
      P = V / D + 1 ∧
      ∀ n, configure (n + 1) V D M F = Plan.ret (V / D + 1) (nbPartitions V M (V / D + 1))) := by
  simp only [configure] at h
  rw [if_neg (by omega)] at h
  obtain ⟨_, _, h1, h2, h3, hmin⟩ := configureLoop_ret V M (F / 2) fuel (V / D + 1) P Q h
  have hleast : ∀ P', V / D + 1 ≤ P' → nbPartitions V M P' < F / 2 → P ≤ P' := by
    intro P' hP' hQ'
    by_contra hlt
    have := hmin P' hP' (by omega)
    simp only [nbPartitions] at hQ'
    omega
  refine ⟨h1, ?_, hleast, h2, ?_⟩
  · simp only [nbPartitions]
    rw [← h2]
    exact h3
  · intro h0
    refine ⟨le_antisymm (hleast _ (le_refl _) h0) h1, ?_⟩
    intro n
    simp only [nbPartitions] at h0
    rw [configure, if_neg (by omega)]
    simp only [configureLoop, nbPartitions]
    rw [if_neg (by omega), if_neg (by omega)]

theorem plan_minimal_witness :
    1000 / 1000 + 1 ≤ 112 ∧ nbPartitions 1000 1 112 < 20 / 2 ∧
    (∀ P', 1000 / 1000 + 1 ≤ P' → nbPartitions 1000 1 P' < 20 / 2 → 112 ≤ P') ∧
    9 = nbPartitions 1000 1 112 ∧
    (nbPartitions 1000 1 (1000 / 1000 + 1) < 20 / 2 →
      112 = 1000 / 1000 + 1 ∧
      ∀ n, configure (n + 1) 1000 1000 1 20 =
        Plan.ret (1000 / 1000 + 1) (nbPartitions 1000 1 (1000 / 1000 + 1))) :=
  plan_minimal 200 1000 1000 1 20 112 9 (by decide) (by decide) (by decide)

/-! ## Hash lemmas -/

theorem wordSize_pos : 0 < wordSize := by decide

theorem xorShift_lt (s a : Nat) (ha : a < wordSize) : a ^^^ (a >>> s) < wordSize := by
  have h1 : a >>> s < wordSize := by
    rw [Nat.shiftRight_eq_div_pow]
    exact lt_of_le_of_lt (Nat.div_le_self _ _) ha
  exact Nat.xor_lt_two_pow ha h1

/-- The step `h ^= h >> s` is invertible on 64-bit words: the bits are
recovered from the most significant one downwards. -/
theorem xorShift_inj (s a b : Nat) (hs : 1 ≤ s) (ha : a < wordSize) (hb : b < wordSize)
    (h : a ^^^ (a >>> s) = b ^^^ (b >>> s)) : a = b := by
  have key : ∀ n i, 64 ≤ i + n → a.testBit i = b.testBit i := by
    intro n
    induction n with
    | zero =>
      intro i hi
      have hpow : wordSize ≤ 2 ^ i := Nat.pow_le_pow_right (by decide) (by omega)
      rw [Nat.testBit_lt_two_pow (lt_of_lt_of_le ha hpow),
        Nat.testBit_lt_two_pow (lt_of_lt_of_le hb hpow)]
    | succ n ih =>
      intro i hi
      have hbit := congrArg (fun z => z.testBit i) h
      simp only [Nat.testBit_xor, Nat.testBit_shiftRight] at hbit
      rw [ih (s + i) (by omega)] at hbit
      exact Bool.xor_right_inj.1 hbit
  exact Nat.eq_of_testBit_eq (fun i => key 64 i (by omega))

/-- Multiplication by a number coprime to `2 ^ 64` is invertible modulo
`2 ^ 64`. -/
theorem mulOdd_inj (c a b : Nat) (hc : Nat.gcd wordSize c = 1) (ha : a < wordSize)
    (hb : b < wordSize) (h : (a * c) % wordSize = (b * c) % wordSize) : a = b := by
  have h1 : a ≡ b [MOD wordSize] := Nat.ModEq.cancel_right_of_coprime hc h
  have h2 : a % wordSize = b % wordSize := h1
  rwa [Nat.mod_eq_of_lt ha, Nat.mod_eq_of_lt hb] at h2

/-- The step `h = (~h) + (h << 18)` is invertible modulo `2 ^ 64`: it maps
`h` to `(2 ^ 64 - 1) + h * (2 ^ 18 - 1)`. -/
theorem notAddShift_inj (a b : Nat) (ha : a < wordSize) (hb : b < wordSize)
    (h : ((wordSize - 1 - a) + (a <<< 18)) % wordSize =
      ((wordSize - 1 - b) + (b <<< 18)) % wordSize) : a = b := by
  have e : ∀ z, z < wordSize →
      (wordSize - 1 - z) + (z <<< 18) = (wordSize - 1) + z * 262143 := by
    intro z hz
    rw [Nat.shiftLeft_eq]
    simp only [wordSize] at hz ⊢
    omega
  rw [e a ha, e b hb] at h
  have h1 : a * 262143 ≡ b * 262143 [MOD wordSize] := Nat.ModEq.add_left_cancel' _ h
  exact mulOdd_inj 262143 a b (by decide) ha hb h1

/-- The step `h = h * 21` is invertible modulo `2 ^ 64`. -/
theorem mul21_inj (a b : Nat) (ha : a < wordSize) (hb : b < wordSize)
    (h : (a * 21) % wordSize = (b * 21) % wordSize) : a = b :=
  mulOdd_inj 21 a b (by decide) ha hb h

/-- The step `h += h << 6` is invertible modulo `2 ^ 64`: it maps `h` to
`h * 65`. -/
theorem addShift_inj (a b : Nat) (ha : a < wordSize) (hb : b < wordSize)
    (h : (a + (a <<< 6)) % wordSize = (b + (b <<< 6)) % wordSize) : a = b := by
  have e : ∀ z : Nat, z + (z <<< 6) = z * 65 := by
    intro z
    rw [Nat.shiftLeft_eq]
    omega
  rw [e a, e b] at h
  exact mulOdd_inj 65 a b (by decide) ha hb h

theorem Hash_lt (x : Nat) : Hash x < wordSize := by
  simp only [Hash]
  exact xorShift_lt 22 _ (Nat.mod_lt _ wordSize_pos)

theorem Hash_inj (x y : Nat) (hx : x < wordSize) (hy : y < wordSize) (h : Hash x = Hash y) :
    x = y := by
  simp only [Hash] at h
  have m := fun z : Nat => Nat.mod_lt z wordSize_pos
  have h6 := xorShift_inj 22 _ _ (by decide) (m _) (m _) h
  have h5 := addShift_inj _ _ (xorShift_lt 11 _ (m _)) (xorShift_lt 11 _ (m _)) h6
  have h4 := xorShift_inj 11 _ _ (by decide) (m _) (m _) h5
  have h3 := mul21_inj _ _ (xorShift_lt 31 _ (m _)) (xorShift_lt 31 _ (m _)) h4
  have h2 := xorShift_inj 31 _ _ (by decide) (m _) (m _) h3
  have h1 := notAddShift_inj _ _ (xorShift_lt 14 _ (m _)) (xorShift_lt 14 _ (m _)) h2
  have h0 := xorShift_inj 14 _ _ (by decide) (m _) (m _) h1
  rwa [Nat.mod_eq_of_lt hx, Nat.mod_eq_of_lt hy] at h0

theorem Hash_surj (z : Nat) (hz : z < wordSize) : ∃ x, x < wordSize ∧ Hash x = z := by
  have hinj : Function.Injective
      (fun x : Fin wordSize => (⟨Hash x.1, Hash_lt x.1⟩ : Fin wordSize)) := by
    intro x y hxy
    have := congrArg Fin.val hxy
    exact Fin.ext (Hash_inj x.1 y.1 x.2 y.2 this)
  obtain ⟨x, hx⟩ := Finite.surjective_of_injective hinj ⟨z, hz⟩
  exact ⟨x.1, x.2, congrArg Fin.val hx⟩

/-! ## Reference planner lemmas -/

/-- What a result of the reference loop satisfies. -/
theorem referenceLoop_some (round : Nat → Nat → Nat) (V M F2 : Nat) :
    ∀ (fuel P0 P Q : Nat), referenceLoop round V M F2 fuel P0 = some (P, Q) →
      P0 ≤ P ∧ Q = round (V / P) M ∧ Q < F2 ∧
        ∀ P', P0 ≤ P' → P' < P → F2 ≤ round (V / P') M := by
  intro fuel
  induction fuel with
  | zero => intro P0 P Q h; simp [referenceLoop] at h
  | succ n ih =>
    intro P0 P Q h
    simp only [referenceLoop] at h
    by_cases hq : round (V / P0) M ≥ F2
    · rw [if_pos hq] at h
      obtain ⟨h1, h2, h3, h4⟩ := ih (P0 + 1) P Q h
      refine ⟨by omega, h2, h3, ?_⟩
      intro P' hP' hlt
      by_cases he : P' = P0
      · subst he; exact hq
      · exact h4 P' (by omega) hlt
    · rw [if_neg hq] at h
      injection h with h
      injection h with h1 h2
      subst h1 h2
      exact ⟨le_refl _, rfl, by omega, fun P' h1 h2 => by omega⟩

/-- C14, as stated, fails: for `V = 10`, `D = 10`, `M = 100`, `F = 10` the
planner starts from `V / D + 1 = 2` passes and returns `(2, 1)`, the reference
planner starts from `max (1, ceil (V / D)) = 1` and returns `(1, 1)`; for
`V = 0`, `D = M = 1` the planner returns `Q = 0 / 1 + 1 = 1`, the reference
planner `Q = ceil (0 / 1) = 0`. -/
theorem planner_differs_from_reference :
    configure 10 10 10 100 10 = Plan.ret 2 1 ∧
    referencePlanner ceilDiv 10 10 10 100 10 = some (1, 1) ∧
    configure 10 0 1 1 10 = Plan.ret 1 1 ∧
    referencePlanner ceilDiv 10 0 1 1 10 = some (1, 0) := by
  decide

/-- C14, amended. The planner equals the reference algorithm with `floor + 1`
in place of the ceiling: for `D ≥ 1`, `M ≥ 1` and every `V`, `F` for which
both return, the `(P, Q)` of `DSK::configure` equals the `(P, Q)` of the
reference planner that starts from `P = max (1, V / D + 1)` and repeats
`Q = (V / P) / M + 1`, incrementing `P` while `Q ≥ F / 2`. -/
theorem planner_refines_reference (fuel fuel' V D M F P Q P' Q' : Nat) (hD : 1 ≤ D)
    (_hM : 1 ≤ M) (h : configure fuel V D M F = Plan.ret P Q)
    (h' : referencePlanner floorSucc fuel' V D M F = some (P', Q')) :
    P = P' ∧ Q = Q' := by
  simp only [configure] at h
  rw [if_neg (by omega)] at h
  obtain ⟨_, _, h1, h2, h3, h4⟩ := configureLoop_ret V M (F / 2) fuel (V / D + 1) P Q h
  have hstart : max 1 (floorSucc V D) = V / D + 1 := by
    simp only [floorSucc]
    exact max_eq_right (Nat.le_add_left 1 _)
  simp only [referencePlanner, hstart] at h'
  obtain ⟨r1, r2, r3, r4⟩ := referenceLoop_some floorSucc V M (F / 2) fuel' (V / D + 1) P' Q' h'
  simp only [floorSucc] at r2 r3 r4
  have hP : P = P' := by
    rcases Nat.lt_trichotomy P P' with hlt | heq | hgt
    · have := r4 P h1 hlt
      omega
    · exact heq
    · have := h4 P' r1 hgt
      omega
  subst hP
  exact ⟨rfl, by rw [h2, r2]⟩

theorem planner_refines_reference_witness :
    configure 200 1000 1000 1 20 = Plan.ret 112 9 ∧
    referencePlanner floorSucc 150 1000 1000 1 20 = some (112, 9) ∧ 112 = 112 ∧ 9 = 9 :=
  ⟨by decide, by decide,
    planner_refines_reference 200 150 1000 1000 1 20 112 9 112 9 (by decide) (by decide)
      (by decide) (by decide)⟩

/-- C18. The `Hash` functor is a bijection on 64-bit words: for all 64-bit
k-mers `x` and `y`, `Hash x = Hash y` implies `x = y`, and every 64-bit word
is the hash of a 64-bit k-mer. -/
theorem Hash_bijective (x y : Nat) (hx : x < 2 ^ 64) (hy : y < 2 ^ 64)
    (h : Hash x = Hash y) :
    x = y ∧ Hash x < 2 ^ 64 ∧ ∀ z, z < 2 ^ 64 → ∃ w, w < 2 ^ 64 ∧ Hash w = z :=
  ⟨Hash_inj x y hx hy h, Hash_lt x, fun z hz => Hash_surj z hz⟩

theorem Hash_bijective_witness :
    ACG = ACG ∧ Hash ACG < 2 ^ 64 ∧ ∀ z, z < 2 ^ 64 → ∃ w, w < 2 ^ 64 ∧ Hash w = z :=
  Hash_bijective ACG ACG (by decide) (by decide) rfl

end DSK
